import Mathlib

/-!
Verification of the `wangkuiyi/fs` unified-filesystem package.

The development shallowly embeds the Go sources:
  * `file.go` — the path router `FsPath` and the per-operation dispatch
    (`Create`, `Open`, `ReadDir`, `Mkdir`, `Stat`) over the four backends,
    including the nil-handle connectedness checks;
  * `inmem_fs.go` — the in-memory store `InMemFS` (a flat map from path
    string to a mutable `bytes.Buffer`) and its operations.

Go strings are modelled as `List Char`; byte buffers as `List Nat` holding
the buffer's unread bytes (`bytes.Buffer.Len` is the length of that list;
reading consumes from it; writing appends).  The store (a Go map) is an
association list with insertion replacing the old binding.
-/

namespace Fs

/-- Paths and map keys: Go strings as lists of characters. -/
abbrev Str := List Char

/-- Contents of a `bytes.Buffer`: the unread bytes. -/
abbrev Bytes := List Nat

/-- Go `strings.HasPrefix(s, pre)`. -/
def goHasPref (s pre : Str) : Bool := pre.isPrefixOf s

/-- Go `strings.TrimPrefix(s, pre)`: removes `pre` from the front of `s`
when present, otherwise returns `s` unchanged. -/
def goTrimPref (s pre : Str) : Str :=
  if goHasPref s pre then s.drop pre.length else s

/-- Test of the LAST character, as in Go `name[len(name)-1] == '/'`
(meaningful for non-empty strings; the empty string yields `false`). -/
def lastIsSlash (n : Str) : Bool := n.reverse.head? == some '/'

/-- The trailing-slash-stripping loop of Go `path.Base`. -/
def dropTrailingSlashes (p : Str) : Str :=
  (p.reverse.dropWhile (fun c => c = '/')).reverse

/-- The segment after the last slash, as computed by Go `path.Base` via
`strings.LastIndex(path, "/")` (returns the whole string when it has no
slash). -/
def afterLastSlash (p : Str) : Str :=
  (p.reverse.takeWhile (fun c => c ≠ '/')).reverse

/-- Go `path.Base`: `"."` for the empty string; otherwise strip trailing
slashes, then keep everything after the last slash; a string of only
slashes yields `"/"`. -/
def goPathBase (p : Str) : Str :=
  if p = [] then ['.']
  else
    let r := afterLastSlash (dropTrailingSlashes p)
    if r = [] then ['/'] else r

/-- The four backend kinds of `file.go`. -/
inductive FsType where
  | Local
  | InMem
  | WebFS
  | HDFS
deriving DecidableEq, Repr

/-- Reserved prefix routed to the WebHDFS backend. -/
def webfsPre : Str := ['/', 'w', 'e', 'b', 'f', 's', '/']

/-- Reserved prefix routed to the native-RPC HDFS backend. -/
def hdfsPre : Str := ['/', 'h', 'd', 'f', 's', '/']

/-- Reserved prefix routed to the in-memory backend. -/
def inmemPre : Str := ['/', 'i', 'n', 'm', 'e', 'm', '/']

/-- `FsPath` from `file.go`: classify a unified path by reserved prefix,
in the order webfs, hdfs, inmem, and rebuild the backend-local path as
`"/" + TrimPrefix(path, pre)`; with no reserved prefix the path is Local
and returned unchanged. -/
def FsPath (path : Str) : FsType × Str :=
  if goHasPref path webfsPre then (.WebFS, '/' :: goTrimPref path webfsPre)
  else if goHasPref path hdfsPre then (.HDFS, '/' :: goTrimPref path hdfsPre)
  else if goHasPref path inmemPre then (.InMem, '/' :: goTrimPref path inmemPre)
  else (.Local, path)

theorem isPrefixOf_append_self (l t : List Char) : l.isPrefixOf (l ++ t) = true := by
  induction l with
  | nil => simp [List.isPrefixOf]
  | cons a l ih => simp [List.isPrefixOf, ih]

theorem goHasPref_append_self (l t : Str) : goHasPref (l ++ t) l = true :=
  isPrefixOf_append_self l t

theorem goTrimPref_append_self (l t : Str) : goTrimPref (l ++ t) l = t := by
  simp [goTrimPref, goHasPref_append_self, List.drop_left]

/-- C5: the path classifier is the reference router: a path carrying a
reserved prefix (`/webfs/`, `/hdfs/`, `/inmem/`, checked in that order)
maps to the corresponding backend with the suffix re-rooted at `/`, and
any path carrying no reserved prefix maps to Local unchanged. -/
theorem C5_FsPath_classifier :
    (∀ s : Str, FsPath (webfsPre ++ s) = (.WebFS, '/' :: s)) ∧
    (∀ s : Str, FsPath (hdfsPre ++ s) = (.HDFS, '/' :: s)) ∧
    (∀ s : Str, FsPath (inmemPre ++ s) = (.InMem, '/' :: s)) ∧
    (∀ p : Str, goHasPref p webfsPre = false → goHasPref p hdfsPre = false →
      goHasPref p inmemPre = false → FsPath p = (.Local, p)) := by
  refine ⟨?_, ?_, ?_, ?_⟩
  · intro s
    simp [FsPath, goHasPref_append_self, goTrimPref_append_self]
  · intro s
    have hweb : goHasPref (hdfsPre ++ s) webfsPre = false := by
      simp [goHasPref, hdfsPre, webfsPre, List.isPrefixOf]
    simp [FsPath, hweb, goHasPref_append_self, goTrimPref_append_self]
  · intro s
    have hweb : goHasPref (inmemPre ++ s) webfsPre = false := by
      simp [goHasPref, inmemPre, webfsPre, List.isPrefixOf]
    have hhdfs : goHasPref (inmemPre ++ s) hdfsPre = false := by
      simp [goHasPref, inmemPre, hdfsPre, List.isPrefixOf]
    simp [FsPath, hweb, hhdfs, goHasPref_append_self, goTrimPref_append_self]
  · intro p h1 h2 h3
    simp [FsPath, h1, h2, h3]

/-- C5 witness: the classifier evaluated at concrete paths of each class. -/
theorem C5_FsPath_classifier_witness :
    FsPath (inmemPre ++ ['t']) = (.InMem, ['/', 't']) ∧
    goHasPref ['/', 't'] webfsPre = false ∧
    FsPath ['/', 't'] = (.Local, ['/', 't']) :=
  ⟨C5_FsPath_classifier.2.2.1 ['t'], by decide,
    C5_FsPath_classifier.2.2.2 ['/', 't'] (by decide) (by decide) (by decide)⟩

/-- The in-memory store `InMemFS`: a Go map from path string to a
`bytes.Buffer`, modelled as an association list whose first binding for a
key is its value. -/
abbrev Store := List (Str × Bytes)

/-- Map lookup `im[k]`. -/
def lookupKey (k : Str) : Store → Option Bytes
  | [] => none
  | e :: s => if e.1 = k then some e.2 else lookupKey k s

/-- Drop every binding of key `k`. -/
def removeKey (k : Str) : Store → Store
  | [] => []
  | e :: s => if e.1 = k then removeKey k s else e :: removeKey k s

/-- Map update `im[k] = v` (replaces the old binding). -/
def setKey (k : Str) (v : Bytes) (s : Store) : Store :=
  (k, v) :: removeKey k s

/-- Writing bytes `b` through the sink returned by `Create(name)`: Go's
`bytes.Buffer.Write` appends to the buffer currently stored at `name`. -/
def writeTo (s : Store) (name : Str) (b : Bytes) : Store :=
  s.map (fun e => if e.1 = name then (e.1, e.2 ++ b) else e)

/-- Reading the buffer at `name` to completion: `bytes.Buffer.Read`
consumes, so the stored buffer is left empty. -/
def drainKey (s : Store) (name : Str) : Store :=
  s.map (fun e => if e.1 = name then (e.1, ([] : Bytes)) else e)

/-- Errors surfaced by the in-memory operations. -/
inductive FsErr where
  | fileDoesNotExist
  | pathNotExist (path : Str)
deriving DecidableEq, Repr

/-- The `FileInfo` struct of `file.go` (implements `os.FileInfo`). -/
structure FileInfo where
  name : Str
  size : Nat
  mode : Nat
  time : Int
  dir : Bool
deriving DecidableEq, Repr

/-- `InMemFS.Create` from `inmem_fs.go`: unconditionally binds `name` to a
fresh empty buffer (the transient `im[name] = nil` has no observable
effect) and returns a no-op-close sink over that buffer, modelled by
`writeTo`. -/
def Create (s : Store) (name : Str) : Store := setKey name [] s

/-- `InMemFS.Open` followed by reading the returned `ioutil.NopCloser` to
completion: when `name` is absent the Go code fails with
`errors.New("File does not exists")`; otherwise reading yields the
buffer's unread bytes and leaves the stored buffer drained. -/
def OpenReadAll (s : Store) (name : Str) : Except FsErr (Bytes × Store) :=
  match lookupKey name s with
  | some b => .ok (b, drainKey s name)
  | none => .error .fileDoesNotExist

/-- The slash-termination step shared by `ReadDir` and `MkDir`: append a
slash unless `name[len(name)-1]` already is one. -/
def ensureDirKey (name : Str) : Str :=
  if lastIsSlash name then name else name ++ ['/']

/-- The record `ReadDir` builds for a matching key `k` with buffer `v`:
name is `path.Base(strings.TrimPrefix(k, dir))`, size is the buffer
length, mode `0777`, time `0`, and the directory flag tests the last byte
of that basename. -/
def childRecord (dir k : Str) (v : Bytes) : FileInfo :=
  { name := goPathBase (goTrimPref k dir)
    size := v.length
    mode := 0o777
    time := 0
    dir := lastIsSlash (goPathBase (goTrimPref k dir)) }

/-- `InMemFS.ReadDir` from `inmem_fs.go`.  `none` models the panic of the
unguarded index `name[len(name)-1]` on the empty path.  Otherwise: the
name is slash-terminated; if that key is absent the call fails with an
`os.PathError` wrapping `os.ErrNotExist`; otherwise every key that has
the directory key as a strict prefix contributes one record. -/
def ReadDir (s : Store) (name : Str) : Option (Except FsErr (List FileInfo)) :=
  if name = [] then none
  else
    let dir := ensureDirKey name
    if lookupKey dir s = none then some (.error (.pathNotExist dir))
    else some (.ok (s.filterMap (fun e =>
      if goHasPref e.1 dir ∧ e.1 ≠ dir then some (childRecord dir e.1 e.2)
      else none)))

/-- `InMemFS.Exists`: exact key presence, never an error. -/
def existsKey (s : Store) (name : Str) : Bool :=
  (lookupKey name s).isSome

/-- `InMemFS.MkDir` from `inmem_fs.go`: `none` models the panic of the
unguarded index on the empty path; otherwise the slash-terminated key is
bound to a fresh empty buffer. -/
def MkDir (s : Store) (name : Str) : Option Store :=
  if name = [] then none
  else some (setKey (ensureDirKey name) [] s)

/-- `InMemFS.Stat` from `inmem_fs.go`: absent keys give an `os.PathError`
wrapping `os.ErrNotExist`; for a present key the record takes
`path.Base(name)`, the buffer length, and the last byte of `name` as the
directory flag (`none` models the panic of that index when the present
key is empty). -/
def Stat (s : Store) (name : Str) : Option (Except FsErr FileInfo) :=
  match lookupKey name s with
  | none => some (.error (.pathNotExist name))
  | some b =>
    if name = [] then none
    else some (.ok
      { name := goPathBase name
        size := b.length
        mode := 0o777
        time := 0
        dir := lastIsSlash name })

theorem lookupKey_setKey_self (k : Str) (v : Bytes) (s : Store) :
    lookupKey k (setKey k v s) = some v := by
  simp [setKey, lookupKey]

theorem lookupKey_removeKey_ne (k k' : Str) (s : Store) (h : k' ≠ k) :
    lookupKey k' (removeKey k s) = lookupKey k' s := by
  have hkk : k ≠ k' := Ne.symm h
  induction s with
  | nil => rfl
  | cons e s ih =>
    by_cases he : e.1 = k
    · simp [removeKey, lookupKey, he, hkk, ih]
    · simp [removeKey, lookupKey, he, ih]

theorem lookupKey_setKey_ne (k k' : Str) (v : Bytes) (s : Store) (h : k' ≠ k) :
    lookupKey k' (setKey k v s) = lookupKey k' s := by
  have : k ≠ k' := fun hk => h hk.symm
  simp [setKey, lookupKey, this, lookupKey_removeKey_ne k k' s h]

theorem writeTo_cons (e : Str × Bytes) (s : Store) (p : Str) (b : Bytes) :
    writeTo (e :: s) p b =
      (if e.1 = p then (e.1, e.2 ++ b) else e) :: writeTo s p b := rfl

theorem drainKey_cons (e : Str × Bytes) (s : Store) (p : Str) :
    drainKey (e :: s) p =
      (if e.1 = p then (e.1, ([] : Bytes)) else e) :: drainKey s p := rfl

theorem lookupKey_mapUpdate (f : Bytes → Bytes) (s : Store) (p k : Str) :
    lookupKey k (s.map (fun e => if e.1 = p then (e.1, f e.2) else e)) =
      if k = p then (lookupKey k s).map f else lookupKey k s := by
  induction s with
  | nil => by_cases h : k = p <;> simp [lookupKey, h]
  | cons e s ih =>
    by_cases hkp : k = p
    · subst hkp
      by_cases he : e.1 = k <;> simp [lookupKey, he, ih]
    · by_cases he : e.1 = k
      · have hep : e.1 ≠ p := by
          rw [he]
          exact hkp
        simp [lookupKey, he, hep, hkp, ih]
      · by_cases hep : e.1 = p
        · have hpk : p ≠ k := fun h => hkp h.symm
          simp [lookupKey, he, hep, hkp, hpk, ih]
        · simp [lookupKey, he, hep, hkp, ih]

theorem lookupKey_writeTo (s : Store) (p k : Str) (b : Bytes) :
    lookupKey k (writeTo s p b) =
      if k = p then (lookupKey k s).map (fun v => v ++ b)
      else lookupKey k s :=
  lookupKey_mapUpdate (fun v => v ++ b) s p k

theorem lookupKey_drainKey (s : Store) (p k : Str) :
    lookupKey k (drainKey s p) =
      if k = p then (lookupKey k s).map (fun _ => ([] : Bytes))
      else lookupKey k s :=
  lookupKey_mapUpdate (fun _ => ([] : Bytes)) s p k

theorem lastIsSlash_append_slash (n : Str) : lastIsSlash (n ++ ['/']) = true := by
  simp [lastIsSlash]

theorem lastIsSlash_ensureDirKey (n : Str) : lastIsSlash (ensureDirKey n) = true := by
  by_cases h : lastIsSlash n <;> simp [ensureDirKey, h, lastIsSlash_append_slash]

theorem lastIsSlash_nil : lastIsSlash [] = false := rfl

theorem lastIsSlash_afterLastSlash (q : Str) :
    lastIsSlash (afterLastSlash q) = false := by
  unfold lastIsSlash afterLastSlash
  rw [List.reverse_reverse]
  cases hq : q.reverse with
  | nil => rfl
  | cons a t =>
    by_cases ha : a = '/'
    · simp [List.takeWhile, ha]
    · simp [List.takeWhile, ha]

theorem goPathBase_slash_flag (p : Str) (h : lastIsSlash (goPathBase p) = true) :
    goPathBase p = ['/'] := by
  by_cases hp : p = []
  · rw [hp] at h
    cases h
  · unfold goPathBase at h ⊢
    rw [if_neg hp] at h ⊢
    by_cases hr : afterLastSlash (dropTrailingSlashes p) = []
    · simp [hr]
    · rw [if_neg hr] at h
      rw [lastIsSlash_afterLastSlash] at h
      cases h

theorem takeWhile_of_all_mem (l : List Char) (h : ∀ x ∈ l, x ≠ '/') :
    l.takeWhile (fun c => c ≠ '/') = l := by
  induction l with
  | nil => rfl
  | cons a t ih =>
    have ha : a ≠ '/' := h a (List.mem_cons_self a t)
    have ht : ∀ x ∈ t, x ≠ '/' := fun x hx => h x (List.mem_cons_of_mem a hx)
    have htw := ih ht
    simp [List.takeWhile, ha, htw]
    exact ht

theorem dropWhile_of_all_mem (l : List Char) (h : ∀ x ∈ l, x ≠ '/') :
    l.dropWhile (fun c => c = '/') = l := by
  cases l with
  | nil => rfl
  | cons a t =>
    have ha : a ≠ '/' := h a (List.mem_cons_self a t)
    simp [List.dropWhile, ha]

theorem lastIsSlash_of_no_slash (c : Str) (h : ∀ x ∈ c, x ≠ '/') :
    lastIsSlash c = false := by
  unfold lastIsSlash
  cases hc : c.reverse with
  | nil => rfl
  | cons a t =>
    have ha : a ∈ c := by
      rw [← List.mem_reverse, hc]
      exact List.mem_cons_self a t
    simp [h a ha]

theorem goPathBase_of_no_slash (c : Str) (hne : c ≠ []) (h : ∀ x ∈ c, x ≠ '/') :
    goPathBase c = c := by
  have hall : ∀ x ∈ c.reverse, x ≠ '/' := by
    intro x hx
    exact h x (List.mem_reverse.mp hx)
  have hdrop : dropTrailingSlashes c = c := by
    unfold dropTrailingSlashes
    rw [dropWhile_of_all_mem c.reverse hall, List.reverse_reverse]
  have hafter : afterLastSlash c = c := by
    unfold afterLastSlash
    rw [takeWhile_of_all_mem c.reverse hall, List.reverse_reverse]
  unfold goPathBase
  rw [if_neg hne, hdrop, hafter, if_neg hne]

theorem removeKey_idem (k : Str) (s : Store) :
    removeKey k (removeKey k s) = removeKey k s := by
  induction s with
  | nil => rfl
  | cons e s ih =>
    by_cases he : e.1 = k
    · simp [removeKey, he, ih]
    · simp [removeKey, he, ih]

theorem setKey_idem (k : Str) (v : Bytes) (s : Store) :
    setKey k v (setKey k v s) = setKey k v s := by
  simp [setKey, removeKey, removeKey_idem]

/-- C6: round-trip law of the in-memory store.  For every prior store,
every path and every byte sequence, writing the bytes through the sink
returned by `Create`, closing it (a no-op), then opening the path and
reading to completion yields exactly the bytes written. -/
theorem C6_create_write_open_roundtrip (s : Store) (p : Str) (b : Bytes) :
    ∃ s', OpenReadAll (writeTo (Create s p) p b) p = .ok (b, s') := by
  have h1 : lookupKey p (writeTo (Create s p) p b) = some b := by
    rw [lookupKey_writeTo]
    simp [Create, lookupKey_setKey_self]
  refine ⟨drainKey (writeTo (Create s p) p b) p, ?_⟩
  simp [OpenReadAll, h1]

/-- C3 counterexample: with the store holding file `/f` with bytes
`[104, 105]`, the first `Open`/read-to-completion returns the contents
but drains the stored buffer (the Go code hands out the stored
`bytes.Buffer` itself, and `bytes.Buffer.Read` consumes); a second
`Open`/read-to-completion therefore yields `[]`, not the full contents,
refuting the claim that reading one cursor does not change the store and
that two successive reads both yield the full contents. -/
theorem C3_counterexample :
    OpenReadAll [(['/', 'f'], [104, 105])] ['/', 'f'] =
      .ok ([104, 105], [(['/', 'f'], [])]) ∧
    OpenReadAll [(['/', 'f'], ([] : Bytes))] ['/', 'f'] =
      .ok ([], [(['/', 'f'], [])]) ∧
    ([] : Bytes) ≠ [104, 105] :=
  ⟨rfl, rfl, by decide⟩

/-- C3 amended: `Open(p)` on a present key succeeds and reading the
returned reader to completion yields the buffer's current unread
contents, but the reader is the stored buffer itself, so the read drains
it: afterwards the store maps `p` to the empty buffer and a second
`Open(p)`/read-to-completion yields `[]` rather than the original
contents. -/
theorem C3_open_drains_buffer (s : Store) (p : Str) (b : Bytes)
    (h : lookupKey p s = some b) :
    ∃ s', OpenReadAll s p = .ok (b, s') ∧ lookupKey p s' = some [] ∧
      ∃ s'', OpenReadAll s' p = .ok ([], s'') := by
  have h1 : lookupKey p (drainKey s p) = some [] := by
    rw [lookupKey_drainKey]
    simp [h]
  exact ⟨drainKey s p, by simp [OpenReadAll, h], h1,
    drainKey (drainKey s p) p, by simp [OpenReadAll, h1]⟩

/-- C3 witness: the amended statement evaluated on a one-file store. -/
theorem C3_open_drains_buffer_witness :
    lookupKey ['/', 'f'] [(['/', 'f'], [104, 105])] = some [104, 105] ∧
    (∃ s', OpenReadAll [(['/', 'f'], [104, 105])] ['/', 'f'] = .ok ([104, 105], s') ∧
      lookupKey ['/', 'f'] s' = some [] ∧
      ∃ s'', OpenReadAll s' ['/', 'f'] = .ok ([], s'')) :=
  ⟨rfl, C3_open_drains_buffer _ _ _ rfl⟩

/-- C4: `ReadDir` on a non-empty path whose slash-terminated form is not
a key of the store fails with the `os.PathError`/`os.ErrNotExist`
condition and returns no records, whatever other (child-like) keys the
store holds. -/
theorem C4_readDir_missing_dir_notFound (s : Store) (n : Str) (hne : n ≠ [])
    (habs : lookupKey (ensureDirKey n) s = none) :
    ReadDir s n = some (.error (.pathNotExist (ensureDirKey n))) := by
  simp [ReadDir, hne, habs]

/-- C4 witness: a store holding only the child-like key `/m/c` still
fails NotFound on `ReadDir("/m")`. -/
theorem C4_readDir_missing_dir_notFound_witness :
    (['/', 'm'] : Str) ≠ [] ∧
    lookupKey (ensureDirKey ['/', 'm']) [(['/', 'm', '/', 'c'], [1])] = none ∧
    ReadDir [(['/', 'm', '/', 'c'], [1])] ['/', 'm'] =
      some (.error (.pathNotExist (ensureDirKey ['/', 'm']))) :=
  ⟨by decide, rfl, C4_readDir_missing_dir_notFound _ _ (by decide) rfl⟩

/-- C7 counterexample: `Create` does not normalize away a trailing slash,
and `Stat` derives the directory flag from the last byte of the queried
path, so immediately after `Create("/a/")` the record for `/a/` reports
`isDirectory = true`, refuting the claim that for every path the record
reports `isDirectory = false`. -/
theorem C7_counterexample :
    Stat (Create [] ['/', 'a', '/']) ['/', 'a', '/'] =
      some (.ok { name := ['a'], size := 0, mode := 0o777, time := 0, dir := true }) :=
  rfl

/-- C7 amended: immediately after `Create(p)` and before any write,
`Stat(p)` reports size 0, and reports `isDirectory = false` whenever `p`
does not end in the separator (a slash-terminated `p` is reported as a
directory); re-`Create` truncates: after writing bytes to the first sink
and calling `Create(p)` again, the store maps `p` to the empty buffer, so
the old content is unreachable through the store and a subsequent
`Open`/read yields nothing. -/
theorem C7_create_truncates (s : Store) (p : Str) (b : Bytes) (hne : p ≠ []) :
    (∃ info, Stat (Create s p) p = some (.ok info) ∧ info.size = 0 ∧
      (lastIsSlash p = false → info.dir = false)) ∧
    lookupKey p (Create (writeTo (Create s p) p b) p) = some [] ∧
    (∃ s', OpenReadAll (Create (writeTo (Create s p) p b) p) p = .ok ([], s')) := by
  refine ⟨⟨⟨goPathBase p, 0, 0o777, 0, lastIsSlash p⟩, ?_, rfl,
    fun h => by simp [h]⟩, ?_,
    drainKey (Create (writeTo (Create s p) p b) p) p, ?_⟩
  · simp [Stat, Create, lookupKey_setKey_self, hne]
  · simp [Create, lookupKey_setKey_self]
  · simp [OpenReadAll, Create, lookupKey_setKey_self]

/-- C7 witness: the amended statement at `p = "/a"`, old content `[1]`. -/
theorem C7_create_truncates_witness :
    (['/', 'a'] : Str) ≠ [] ∧
    ((∃ info, Stat (Create [] ['/', 'a']) ['/', 'a'] = some (.ok info) ∧
        info.size = 0 ∧ (lastIsSlash ['/', 'a'] = false → info.dir = false)) ∧
      lookupKey ['/', 'a']
        (Create (writeTo (Create [] ['/', 'a']) ['/', 'a'] [1]) ['/', 'a']) = some [] ∧
      (∃ s', OpenReadAll
        (Create (writeTo (Create [] ['/', 'a']) ['/', 'a'] [1]) ['/', 'a'])
        ['/', 'a'] = .ok ([], s'))) :=
  ⟨by decide, C7_create_truncates [] ['/', 'a'] [1] (by decide)⟩

/-- C8: `MkDir(p)` on a non-empty path binds exactly the slash-terminated
form of `p` to an empty marker buffer: the new key ends in the separator
and maps to the empty buffer, re-invoking `MkDir(p)` returns the very
same store (idempotent, no error), and every other key — in particular
every missing ancestor of `p` — is untouched. -/
theorem C8_mkdir_marker_idempotent (s : Store) (n : Str) (hne : n ≠ []) :
    ∃ s', MkDir s n = some s' ∧
      lastIsSlash (ensureDirKey n) = true ∧
      lookupKey (ensureDirKey n) s' = some [] ∧
      MkDir s' n = some s' ∧
      ∀ k, k ≠ ensureDirKey n → lookupKey k s' = lookupKey k s := by
  refine ⟨setKey (ensureDirKey n) [] s, by simp [MkDir, hne],
    lastIsSlash_ensureDirKey n, lookupKey_setKey_self _ _ _, ?_, ?_⟩
  · simp [MkDir, hne, setKey_idem]
  · intro k hk
    exact lookupKey_setKey_ne _ _ _ _ hk

/-- C8 witness: `MkDir` on `"/d"` over the empty store. -/
theorem C8_mkdir_marker_idempotent_witness :
    (['/', 'd'] : Str) ≠ [] ∧
    ∃ s', MkDir [] ['/', 'd'] = some s' ∧
      lastIsSlash (ensureDirKey ['/', 'd']) = true ∧
      lookupKey (ensureDirKey ['/', 'd']) s' = some [] ∧
      MkDir s' ['/', 'd'] = some s' ∧
      ∀ k, k ≠ ensureDirKey ['/', 'd'] → lookupKey k s' = lookupKey k [] :=
  ⟨by decide, C8_mkdir_marker_idempotent [] ['/', 'd'] (by decide)⟩

/-- C10: `ReadDir` and `MkDir` index the last byte of the path without a
guard, so both complete (no panic) exactly on non-empty paths: for every
store and non-empty path both return a value, and on the empty path both
hit the out-of-bounds index, modelled as `none`. -/
theorem C10_empty_path_panics :
    (∀ (s : Store) (n : Str), n ≠ [] →
      (MkDir s n).isSome = true ∧ (ReadDir s n).isSome = true) ∧
    (∀ s : Store, MkDir s [] = none ∧ ReadDir s [] = none) := by
  constructor
  · intro s n hne
    constructor
    · simp [MkDir, hne]
    · by_cases h : lookupKey (ensureDirKey n) s = none <;> simp [ReadDir, hne, h]
  · intro s
    exact ⟨rfl, rfl⟩

/-- C10 witness: both operations evaluated on the empty store, at the
non-empty path `"/d"` and at the empty path. -/
theorem C10_empty_path_panics_witness :
    ((MkDir [] ['/', 'd']).isSome = true ∧ (ReadDir [] ['/', 'd']).isSome = true) ∧
    MkDir [] [] = none ∧ ReadDir [] [] = none :=
  ⟨C10_empty_path_panics.1 [] ['/', 'd'] (by decide), C10_empty_path_panics.2 []⟩

/-- C1 counterexample: the store holds the directory marker `/a/` and the
grandchild file `/a/b/c`.  The sole direct child of `/a/` is the
(implicit) subdirectory `b/`, yet `ReadDir("/a/")` returns a single
record named `c` — `path.Base` of the stripped remainder `b/c` is its
LAST segment — flagged as a file.  This refutes the claim that `ReadDir`
takes the FIRST path segment as the child name, lists direct children
only, and reports slash-terminated children as directories. -/
theorem C1_counterexample :
    ReadDir [(['/', 'a', '/'], []), (['/', 'a', '/', 'b', '/', 'c'], [7])]
        ['/', 'a', '/'] =
      some (.ok [⟨['c'], 1, 0o777, 0, false⟩]) ∧
    (⟨['b', '/'], 0, 0o777, 0, true⟩ : FileInfo) ∉
      [(⟨['c'], 1, 0o777, 0, false⟩ : FileInfo)] ∧
    (⟨['b'], 0, 0o777, 0, true⟩ : FileInfo) ∉
      [(⟨['c'], 1, 0o777, 0, false⟩ : FileInfo)] :=
  ⟨rfl, by decide, by decide⟩

/-- C1 amended: for a store containing the slash-terminated directory key
`d`, `ReadDir(d)` returns one record per key that strictly extends `d` —
descendants at EVERY depth, not only direct children.  Each record's name
is Go `path.Base` of the key with prefix `d` stripped (the last segment,
trailing separators removed), and its directory flag can only be set in
the degenerate case where that basename is the separator itself; in
particular a direct child whose remainder contains no separator is
reported under its own name as a file of the buffer's size. -/
theorem C1_readDir_descendants_by_basename (s : Store) (d : Str)
    (h1 : lastIsSlash d = true) (h2 : lookupKey d s ≠ none) :
    ∃ l, ReadDir s d = some (.ok l) ∧
      (∀ info, info ∈ l ↔ ∃ e ∈ s, goHasPref e.1 d = true ∧ e.1 ≠ d ∧
        info = childRecord d e.1 e.2) ∧
      (∀ info ∈ l, info.dir = true → info.name = ['/']) ∧
      (∀ e ∈ s, ∀ c : Str, e.1 = d ++ c → c ≠ [] → (∀ x ∈ c, x ≠ '/') →
        (⟨c, e.2.length, 0o777, 0, false⟩ : FileInfo) ∈ l) := by
  have hdne : d ≠ [] := by
    intro hd
    rw [hd] at h1
    cases h1
  have hkey : ensureDirKey d = d := by
    simp [ensureDirKey, h1]
  have hrd : ReadDir s d = some (.ok (s.filterMap (fun e =>
      if goHasPref e.1 d ∧ e.1 ≠ d then some (childRecord d e.1 e.2)
      else none))) := by
    simp [ReadDir, hdne, hkey, h2]
  refine ⟨_, hrd, ?_, ?_, ?_⟩
  · intro info
    rw [List.mem_filterMap]
    constructor
    · rintro ⟨e, he, hfe⟩
      by_cases hc : goHasPref e.1 d = true ∧ e.1 ≠ d
      · rw [if_pos ⟨hc.1, hc.2⟩] at hfe
        exact ⟨e, he, hc.1, hc.2, (Option.some.injEq _ _ ▸ hfe).symm⟩
      · rw [if_neg (fun hh => hc ⟨hh.1, hh.2⟩)] at hfe
        cases hfe
    · rintro ⟨e, he, hp, hne, hinfo⟩
      refine ⟨e, he, ?_⟩
      rw [if_pos ⟨hp, hne⟩, hinfo]
  · intro info hmem hdir
    rcases List.mem_filterMap.mp hmem with ⟨e, _, hfe⟩
    by_cases hc : goHasPref e.1 d = true ∧ e.1 ≠ d
    · rw [if_pos ⟨hc.1, hc.2⟩] at hfe
      have hinfo : info = childRecord d e.1 e.2 := (Option.some.injEq _ _ ▸ hfe).symm
      subst hinfo
      have hflag : lastIsSlash (goPathBase (goTrimPref e.1 d)) = true := hdir
      exact goPathBase_slash_flag _ hflag
    · rw [if_neg (fun hh => hc ⟨hh.1, hh.2⟩)] at hfe
      cases hfe
  · intro e he c hc hcne hcs
    rw [List.mem_filterMap]
    refine ⟨e, he, ?_⟩
    have hp : goHasPref e.1 d = true := by
      rw [hc]
      exact goHasPref_append_self d c
    have hne : e.1 ≠ d := by
      rw [hc]
      intro hh
      apply hcne
      have : d ++ c = d ++ [] := by
        rw [List.append_nil]
        exact hh
      exact List.append_cancel_left this
    rw [if_pos ⟨hp, hne⟩]
    have htrim : goTrimPref e.1 d = c := by
      rw [hc]
      exact goTrimPref_append_self d c
    simp [childRecord, htrim, goPathBase_of_no_slash c hcne hcs,
      lastIsSlash_of_no_slash c hcs]

/-- C1 witness: the amended statement on the two-entry store
`{/a/ ↦ [], /a/b/c ↦ [7]}`. -/
theorem C1_readDir_descendants_by_basename_witness :
    lastIsSlash ['/', 'a', '/'] = true ∧
    (∃ l, ReadDir [(['/', 'a', '/'], []), (['/', 'a', '/', 'b', '/', 'c'], [7])]
          ['/', 'a', '/'] = some (.ok l) ∧
      (∀ info, info ∈ l ↔
        ∃ e ∈ [(['/', 'a', '/'], ([] : Bytes)), (['/', 'a', '/', 'b', '/', 'c'], [7])],
          goHasPref e.1 ['/', 'a', '/'] = true ∧ e.1 ≠ ['/', 'a', '/'] ∧
          info = childRecord ['/', 'a', '/'] e.1 e.2) ∧
      (∀ info ∈ l, info.dir = true → info.name = ['/']) ∧
      (∀ e ∈ [(['/', 'a', '/'], ([] : Bytes)), (['/', 'a', '/', 'b', '/', 'c'], [7])],
        ∀ c : Str, e.1 = ['/', 'a', '/'] ++ c → c ≠ [] → (∀ x ∈ c, x ≠ '/') →
        (⟨c, e.2.length, 0o777, 0, false⟩ : FileInfo) ∈ l)) :=
  ⟨by decide, C1_readDir_descendants_by_basename _ _ (by decide) (by decide)⟩

/-- Presence of the two package-level remote handles of `file.go`:
`webfs` (WebHDFS client) and `rpcfs` (native-RPC client), each `nil`
until `HookupHDFS` succeeds. -/
structure Conn where
  webfs : Bool
  rpcfs : Bool
deriving DecidableEq, Repr

/-- What a dispatched operation in `file.go` does before any backend work:
either it returns the distinguishable not-connected error
(`errNoWebFS` / `errNoRpcFS`), or it proceeds into the backend with the
backend-local path — `nilDereference` marks the branches that invoke a
method on the handle WITHOUT a nil check, which on an absent handle is a
runtime nil-pointer panic, not an error return. -/
inductive RemoteOutcome where
  | notConnectedError (backend : FsType)
  | delegate (backend : FsType) (p : Str)
  | nilDereference (backend : FsType) (p : Str)
deriving DecidableEq, Repr

/-- `Create` dispatch from `file.go`: both remote branches guard their
handle (`webfs == nil`, `rpcfs == nil`) before use. -/
def routeCreate (c : Conn) (name : Str) : RemoteOutcome :=
  match FsPath name with
  | (.WebFS, p) => if c.webfs then .delegate .WebFS p else .notConnectedError .WebFS
  | (.HDFS, p) => if c.rpcfs then .delegate .HDFS p else .notConnectedError .HDFS
  | (.InMem, p) => .delegate .InMem p
  | (.Local, p) => .delegate .Local p

/-- `Open` dispatch from `file.go`: both remote branches guard their
handle before use. -/
def routeOpen (c : Conn) (name : Str) : RemoteOutcome :=
  match FsPath name with
  | (.WebFS, p) => if c.webfs then .delegate .WebFS p else .notConnectedError .WebFS
  | (.HDFS, p) => if c.rpcfs then .delegate .HDFS p else .notConnectedError .HDFS
  | (.InMem, p) => .delegate .InMem p
  | (.Local, p) => .delegate .Local p

/-- `ReadDir` dispatch from `file.go`: the WebFS branch guards `webfs`,
but the HDFS branch is `return rpcfs.ReadDir(path)` with no nil check. -/
def routeReadDir (c : Conn) (name : Str) : RemoteOutcome :=
  match FsPath name with
  | (.WebFS, p) => if c.webfs then .delegate .WebFS p else .notConnectedError .WebFS
  | (.HDFS, p) => if c.rpcfs then .delegate .HDFS p else .nilDereference .HDFS p
  | (.InMem, p) => .delegate .InMem p
  | (.Local, p) => .delegate .Local p

/-- `Mkdir` dispatch from `file.go`: the WebFS branch guards `webfs`, but
the HDFS branch is `return rpcfs.MkdirAll(path, 0777)` with no nil
check. -/
def routeMkdir (c : Conn) (name : Str) : RemoteOutcome :=
  match FsPath name with
  | (.WebFS, p) => if c.webfs then .delegate .WebFS p else .notConnectedError .WebFS
  | (.HDFS, p) => if c.rpcfs then .delegate .HDFS p else .nilDereference .HDFS p
  | (.InMem, p) => .delegate .InMem p
  | (.Local, p) => .delegate .Local p

/-- `Stat` dispatch from `file.go`: the WebFS branch guards `webfs`, but
the HDFS branch is `return rpcfs.Stat(p)` with no nil check. -/
def routeStat (c : Conn) (name : Str) : RemoteOutcome :=
  match FsPath name with
  | (.WebFS, p) => if c.webfs then .delegate .WebFS p else .notConnectedError .WebFS
  | (.HDFS, p) => if c.rpcfs then .delegate .HDFS p else .nilDereference .HDFS p
  | (.InMem, p) => .delegate .InMem p
  | (.Local, p) => .delegate .Local p

/-- C2: with no connection established, the five dispatched operations on
the path `/hdfs/x` and on `/webfs/x`.  The claim — every remote operation
checks connectedness first and returns a distinguishable not-connected
error — holds for `Create` and `Open` and for every WebFS branch, but
`ReadDir`, `Mkdir` and `Stat` on the RPC backend proceed straight into a
method call on the absent (nil) `rpcfs` handle: the code violates the
stated invariant on those three operations. -/
theorem C2_missing_rpcfs_nil_check :
    routeReadDir ⟨false, false⟩ ['/', 'h', 'd', 'f', 's', '/', 'x'] =
      .nilDereference .HDFS ['/', 'x'] ∧
    routeMkdir ⟨false, false⟩ ['/', 'h', 'd', 'f', 's', '/', 'x'] =
      .nilDereference .HDFS ['/', 'x'] ∧
    routeStat ⟨false, false⟩ ['/', 'h', 'd', 'f', 's', '/', 'x'] =
      .nilDereference .HDFS ['/', 'x'] ∧
    routeCreate ⟨false, false⟩ ['/', 'h', 'd', 'f', 's', '/', 'x'] =
      .notConnectedError .HDFS ∧
    routeOpen ⟨false, false⟩ ['/', 'h', 'd', 'f', 's', '/', 'x'] =
      .notConnectedError .HDFS ∧
    routeReadDir ⟨false, false⟩ ['/', 'w', 'e', 'b', 'f', 's', '/', 'x'] =
      .notConnectedError .WebFS ∧
    routeMkdir ⟨false, false⟩ ['/', 'w', 'e', 'b', 'f', 's', '/', 'x'] =
      .notConnectedError .WebFS ∧
    routeStat ⟨false, false⟩ ['/', 'w', 'e', 'b', 'f', 's', '/', 'x'] =
      .notConnectedError .WebFS :=
  ⟨rfl, rfl, rfl, rfl, rfl, rfl, rfl, rfl⟩

/-- One caller-visible interaction with the in-memory store.  `write p b`
models writing through a sink previously returned by `Create(p)` whose
buffer is still the one stored at `p`; writes through a detached sink
(whose buffer a later `Create` or `MkDir` replaced) do not touch the
store at all and need no step. -/
inductive Op where
  | create (p : Str)
  | write (p : Str) (b : Bytes)
  | mkdir (p : Str)
  | openReadAll (p : Str)
  | stat (p : Str)
  | readDir (p : Str)
  | existsQ (p : Str)
deriving DecidableEq, Repr

/-- Machine state: the store plus the keys whose current buffer has a
live write sink (handed out by `Create` and not since replaced by
`MkDir`). -/
structure MState where
  store : Store
  exposed : List Str
deriving Repr

/-- Effect of one operation on the machine state, following
`inmem_fs.go`: `Create` binds a fresh empty buffer and exposes its sink;
a sink write appends to the current buffer; `MkDir` binds a fresh empty
marker buffer (detaching any sink on that key); reading to completion
drains the buffer in place; `Stat`, `ReadDir` and `Exists` do not mutate. -/
def step (st : MState) : Op → MState
  | .create p => ⟨setKey p [] st.store, p :: st.exposed⟩
  | .write p b =>
      if p ∈ st.exposed then ⟨writeTo st.store p b, st.exposed⟩ else st
  | .mkdir p =>
      if p = [] then st
      else ⟨setKey (ensureDirKey p) [] st.store,
        st.exposed.filter (fun k => k ≠ ensureDirKey p)⟩
  | .openReadAll p => ⟨drainKey st.store p, st.exposed⟩
  | .stat _ => st
  | .readDir _ => st
  | .existsQ _ => st

/-- Execution of a trace from the empty store. -/
def run (ops : List Op) : MState := ops.foldl step ⟨[], []⟩

/-- Restriction under which the directory-marker invariant holds: every
`Create` in the trace is given a path that does not end in the path
separator. -/
def createPathOk : Op → Bool
  | .create p => !(lastIsSlash p)
  | _ => true

/-- The directory-marker invariant: every key ending in the separator
maps to an empty buffer. -/
def DirMarkersEmpty (s : Store) : Prop :=
  ∀ k v, lookupKey k s = some v → lastIsSlash k = true → v = []

/-- Auxiliary invariant: every exposed (sink-writable) key is a file key. -/
def ExposedNonDir (st : MState) : Prop :=
  ∀ k ∈ st.exposed, lastIsSlash k = false

theorem step_preserves_inv (st : MState) (op : Op)
    (hop : createPathOk op = true)
    (h1 : DirMarkersEmpty st.store) (h2 : ExposedNonDir st) :
    DirMarkersEmpty (step st op).store ∧ ExposedNonDir (step st op) := by
  cases op with
  | create p =>
    have hps : lastIsSlash p = false := by
      simpa [createPathOk] using hop
    constructor
    · intro k v hk hsl
      by_cases hkp : k = p
      · subst hkp
        rw [lastIsSlash] at hsl hps
        rw [hsl] at hps
        cases hps
      · rw [step, lookupKey_setKey_ne _ _ _ _ hkp] at hk
        exact h1 k v hk hsl
    · intro k hk
      rcases List.mem_cons.mp hk with hkp | hk2
      · rw [hkp]
        exact hps
      · exact h2 k hk2
  | write p b =>
    by_cases hmem : p ∈ st.exposed
    · constructor
      · intro k v hk hsl
        rw [step, if_pos hmem] at hk
        rw [lookupKey_writeTo] at hk
        by_cases hkp : k = p
        · subst hkp
          rw [h2 k hmem] at hsl
          cases hsl
        · rw [if_neg hkp] at hk
          exact h1 k v hk hsl
      · intro k hk
        rw [step, if_pos hmem] at hk
        exact h2 k hk
    · rw [step, if_neg hmem]
      exact ⟨h1, h2⟩
  | mkdir p =>
    by_cases hp : p = []
    · rw [step, if_pos hp]
      exact ⟨h1, h2⟩
    · constructor
      · intro k v hk hsl
        rw [step, if_neg hp] at hk
        by_cases hkd : k = ensureDirKey p
        · subst hkd
          rw [lookupKey_setKey_self] at hk
          exact (Option.some.injEq _ _ ▸ hk).symm
        · rw [lookupKey_setKey_ne _ _ _ _ hkd] at hk
          exact h1 k v hk hsl
      · intro k hk
        rw [step, if_neg hp] at hk
        exact h2 k (List.mem_of_mem_filter hk)
  | openReadAll p =>
    constructor
    · intro k v hk hsl
      rw [step, lookupKey_drainKey] at hk
      by_cases hkp : k = p
      · rw [if_pos hkp] at hk
        cases hlk : lookupKey k st.store with
        | none =>
          rw [hlk] at hk
          cases hk
        | some w =>
          rw [hlk] at hk
          exact (Option.some.injEq _ _ ▸ hk).symm
      · rw [if_neg hkp] at hk
        exact h1 k v hk hsl
    · intro k hk
      exact h2 k hk
  | stat p => exact ⟨h1, h2⟩
  | readDir p => exact ⟨h1, h2⟩
  | existsQ p => exact ⟨h1, h2⟩

theorem foldl_preserves_inv (ops : List Op) (st : MState)
    (hops : ∀ op ∈ ops, createPathOk op = true)
    (h1 : DirMarkersEmpty st.store) (h2 : ExposedNonDir st) :
    DirMarkersEmpty (ops.foldl step st).store ∧
      ExposedNonDir (ops.foldl step st) := by
  induction ops generalizing st with
  | nil => exact ⟨h1, h2⟩
  | cons op ops ih =>
    have h := step_preserves_inv st op (hops op (List.mem_cons_self op ops)) h1 h2
    exact ih (step st op) (fun o ho => hops o (List.mem_cons_of_mem op ho)) h.1 h.2

/-- C9 counterexample: the two-step trace `Create("/a/")`, then a write
of one byte through the returned sink, is built entirely from the public
operations, yet leaves the slash-terminated key `/a/` bound to a
NON-empty buffer — and that buffer's contents influence results:
`Stat("/a/")` then reports size 1 (with the directory flag set).  This
refutes the claim that in every reachable state every directory-marker
key maps to an empty buffer whose contents never influence a result. -/
theorem C9_counterexample :
    lookupKey ['/', 'a', '/']
      (run [Op.create ['/', 'a', '/'], Op.write ['/', 'a', '/'] [1]]).store =
      some [1] ∧
    lastIsSlash ['/', 'a', '/'] = true ∧
    Stat (run [Op.create ['/', 'a', '/'], Op.write ['/', 'a', '/'] [1]]).store
        ['/', 'a', '/'] =
      some (.ok ⟨['a'], 1, 0o777, 0, true⟩) :=
  ⟨rfl, rfl, rfl⟩

/-- C9 amended: the directory-marker invariant holds on every trace of
public operations in which `Create` is only ever given file paths (paths
not ending in the separator): in the resulting store, every key ending in
the separator maps to the empty buffer.  (`MkDir` markers start empty,
only `Create`-exposed sinks can append, and draining reads only empty
buffers further.) -/
theorem C9_dir_markers_empty (ops : List Op)
    (hops : ∀ op ∈ ops, createPathOk op = true) :
    ∀ k v, lookupKey k (run ops).store = some v → lastIsSlash k = true →
      v = [] := by
  intro k v hk hsl
  have hinit1 : DirMarkersEmpty ([] : Store) := by
    intro k v hkv _
    cases hkv
  have hinit2 : ExposedNonDir ⟨[], []⟩ := by
    intro k hkmem
    exact absurd hkmem (List.not_mem_nil k)
  have h := foldl_preserves_inv ops ⟨[], []⟩ hops hinit1 hinit2
  exact h.1 k v hk hsl

/-- C9 witness: the amended invariant on the trace `MkDir("/d")`,
`Create("/f")`, at the marker key `/d/`. -/
theorem C9_dir_markers_empty_witness :
    (∀ op ∈ ([Op.mkdir ['/', 'd'], Op.create ['/', 'f']] : List Op),
      createPathOk op = true) ∧
    lookupKey ['/', 'd', '/']
      (run [Op.mkdir ['/', 'd'], Op.create ['/', 'f']]).store = some [] ∧
    ([] : Bytes) = [] :=
  ⟨by decide, rfl,
    C9_dir_markers_empty [Op.mkdir ['/', 'd'], Op.create ['/', 'f']]
      (by decide) ['/', 'd', '/'] [] rfl rfl⟩

end Fs
